import Mathlib

/-!
Shallow embedding of five Qt Creator plugin source files and proofs about the
claims made by the repository's specification.

The central object is the ClassView tree-reconciliation algorithm
(`Utils::moveItemToTarget` / `Utils::fetchItemToTarget` in
`src/plugins/classview/classviewutils.cpp`).  A `QStandardItem` tree is
modelled by `TreeNode α β`: each node carries the `SymbolInformation` read by
`symbolInformationFromItem` (abstracted to an arbitrary linearly ordered type
`α`, since the comparison operators of `SymbolInformation` live in
`classviewsymbolinformation.cpp`, which is not among the provided sources) plus
the remaining item data (`extra : β`, e.g. the locations role), and a list of
children in row order.  `QStandardItem::clone` copies the item's data values
but not its children, which the embedding reflects faithfully.
-/

namespace ClassView

/-- A `QStandardItem` subtree: the symbol information carried by the item's
data roles, the rest of the item's data values, and the child rows in order. -/
inductive TreeNode (α β : Type) : Type
  | mk (info : α) (extra : β) (children : List (TreeNode α β))

namespace TreeNode

/-- The symbol information stored in the node (what `symbolInformationFromItem`
reads back from the item's data roles). -/
def info {α β : Type} : TreeNode α β → α
  | .mk i _ _ => i

/-- The remaining data values of the item (everything `clone` copies besides
the symbol information). -/
def extra {α β : Type} : TreeNode α β → β
  | .mk _ e _ => e

/-- The child rows of the item, in row order. -/
def children {α β : Type} : TreeNode α β → List (TreeNode α β)
  | .mk _ _ cs => cs

end TreeNode

variable {α β : Type}

/-- The tree of symbol information only, used to compare two item trees "node
for node and level by level" while ignoring the extra item data. -/
inductive InfoTree (α : Type) : Type
  | node (info : α) (children : List (InfoTree α))

/-- Root symbol information of an information tree. -/
def InfoTree.info {α : Type} : InfoTree α → α
  | .node i _ => i

mutual

/-- Symbol information skeleton of a tree. -/
def infoTree : TreeNode α β → InfoTree α
  | .mk i _ cs => .node i (infoForest cs)

/-- Symbol information skeletons of a forest. -/
def infoForest : List (TreeNode α β) → List (InfoTree α)
  | [] => []
  | c :: cs => infoTree c :: infoForest cs

end

/-- Adjacent strict ascending chain: the executable meaning of "strictly
sorted by the ordering". -/
def chainLt [LinearOrder α] : List α → Bool
  | [] => true
  | [_] => true
  | a :: b :: rest => decide (a < b) && chainLt (b :: rest)

/-- A row of children is sorted when their symbol informations form a strictly
ascending chain. -/
def chainSorted [LinearOrder α] (cs : List (TreeNode α β)) : Bool :=
  chainLt (cs.map TreeNode.info)

mutual

/-- Every child list in the tree is strictly sorted. -/
def treeSorted [LinearOrder α] : TreeNode α β → Bool
  | .mk _ _ cs => chainSorted cs && forestSorted cs

/-- Every tree of the forest is sorted at every node. -/
def forestSorted [LinearOrder α] : List (TreeNode α β) → Bool
  | [] => true
  | c :: cs => treeSorted c && forestSorted cs

end

mutual

/-- Deep copy of a tree, preserving all item data (what repeatedly cloning and
appending every row would build). -/
def cloneTree : TreeNode α β → TreeNode α β
  | .mk i e cs => .mk i e (cloneForest cs)

/-- Deep copy of a forest. -/
def cloneForest : List (TreeNode α β) → List (TreeNode α β)
  | [] => []
  | c :: cs => cloneTree c :: cloneForest cs

end

/-- The child-list loop of `Utils::moveItemToTarget` (classviewutils.cpp,
lines 230-266).  The first argument is the remaining live child rows (from
`itemIndex` on), the second the remaining target child rows.  While both lists
are non-empty: a live child smaller than the target child is removed; equal
children are reconciled recursively in place; otherwise a childless clone of
the target child is inserted and reconciled recursively.  When the live rows
run out, the remaining target children are appended as childless clones and
reconciled; when the target rows run out, the remaining live children are
removed.  The recursive `moveItemToTarget(itemChild, targetChild)` call is
inlined as a node rebuilt around the recursively merged children. -/
def moveChildren [LinearOrder α] :
    List (TreeNode α β) → List (TreeNode α β) → List (TreeNode α β)
  | [], [] => []
  | _ :: _, [] => []
  | [], .mk ti te tc :: ts =>
      .mk ti te (moveChildren [] tc) :: moveChildren [] ts
  | .mk ii ie ic :: is, .mk ti te tc :: ts =>
      if ii < ti then
        moveChildren is (.mk ti te tc :: ts)
      else if ii = ti then
        .mk ii ie (moveChildren ic tc) :: moveChildren is ts
      else
        .mk ti te (moveChildren [] tc) :: moveChildren (.mk ii ie ic :: is) ts
termination_by is ts => (sizeOf ts, is.length)

/-- `Utils::moveItemToTarget`: the live item keeps its own data; its child
rows are converged to the target's child rows. -/
def moveItemToTarget [LinearOrder α] (item target : TreeNode α β) : TreeNode α β :=
  .mk item.info item.extra (moveChildren item.children target.children)

/-- The child-list loop of `Utils::fetchItemToTarget` (classviewutils.cpp,
lines 185-214).  A live child smaller than the target child is skipped, equal
children advance both sides, and otherwise a childless clone of the target
child is inserted; remaining target children are appended as childless clones.
Nothing is ever removed and no recursion into children happens. -/
def fetchChildren [LinearOrder α] :
    List (TreeNode α β) → List (TreeNode α β) → List (TreeNode α β)
  | is, [] => is
  | [], .mk ti te _ :: ts => .mk ti te [] :: fetchChildren [] ts
  | .mk ii ie ic :: is, .mk ti te tc :: ts =>
      if ii < ti then
        .mk ii ie ic :: fetchChildren is (.mk ti te tc :: ts)
      else if ii = ti then
        .mk ii ie ic :: fetchChildren is ts
      else
        .mk ti te [] :: fetchChildren (.mk ii ie ic :: is) ts
termination_by is ts => (ts.length, is.length)

/-- `Utils::fetchItemToTarget`: the live item keeps its own data; missing
target children are inserted into its child rows. -/
def fetchItemToTarget [LinearOrder α] (item target : TreeNode α β) : TreeNode α β :=
  .mk item.info item.extra (fetchChildren item.children target.children)

/-- The naive full rebuild that the specification contrasts with the
incremental algorithm: discard the item's children and clone the target's
children wholesale. -/
def naiveRebuild (item target : TreeNode α β) : TreeNode α β :=
  .mk item.info item.extra (cloneForest target.children)

/-- Specification-level description of one reconciliation round, following the
words of the claim: a live child whose symbol information equals that of some
target child is kept in place with only its descendants reconciled
recursively; a target child with no matching live child causes an insertion of
a fresh clone; live children with no matching target child do not appear. -/
def reconcileSpec [LinearOrder α] (is ts : List (TreeNode α β)) :
    List (TreeNode α β) :=
  ts.map fun t =>
    match is.find? (fun i => decide (i.info = t.info)) with
    | some i => .mk i.info i.extra (moveChildren i.children t.children)
    | none => cloneTree t

/-- Fuelled interpreter of the `moveItemToTarget` child loop: one unit of fuel
is spent per loop iteration or recursive call, and `none` means the fuel ran
out before the code returned.  Used to state that the mutually recursive
reconciliation with its three in-node loops always reaches a return. -/
def moveChildrenFuel [LinearOrder α] :
    Nat → List (TreeNode α β) → List (TreeNode α β) → Option (List (TreeNode α β))
  | 0, _, _ => none
  | _ + 1, [], [] => some []
  | _ + 1, _ :: _, [] => some []
  | fuel + 1, [], .mk ti te tc :: ts => do
      let c ← moveChildrenFuel fuel [] tc
      let r ← moveChildrenFuel fuel [] ts
      some (.mk ti te c :: r)
  | fuel + 1, .mk ii ie ic :: is, .mk ti te tc :: ts =>
      if ii < ti then
        moveChildrenFuel fuel is (.mk ti te tc :: ts)
      else if ii = ti then do
        let c ← moveChildrenFuel fuel ic tc
        let r ← moveChildrenFuel fuel is ts
        some (.mk ii ie c :: r)
      else do
        let c ← moveChildrenFuel fuel [] tc
        let r ← moveChildrenFuel fuel (.mk ii ie ic :: is) ts
        some (.mk ti te c :: r)

/-- Fuelled `moveItemToTarget`. -/
def moveItemToTargetFuel [LinearOrder α] (fuel : Nat) (item target : TreeNode α β) :
    Option (TreeNode α β) :=
  (moveChildrenFuel fuel item.children target.children).map
    (fun cs => .mk item.info item.extra cs)

end ClassView

namespace ClassView

/-!
Embedding of the remaining ClassView utilities: the conversions between
`QStandardItem` data roles and `SymbolInformation` / `SymbolLocation`
(classviewutils.cpp, lines 84-174) and the icon sort order table
(classviewutils.cpp, lines 44-69 and 115-130).
-/

/-- A symbol location (`classviewsymbollocation.h` is not among the provided
sources; the fields are the ones carried through `QVariant` by the code). -/
structure SymbolLocation where
  fileName : String
  line : Int
  column : Int
deriving DecidableEq

instance : Inhabited SymbolLocation := ⟨⟨"", 0, 0⟩⟩

/-- The symbol data stored by `setSymbolInformationToItem` and read back by
`symbolInformationFromItem`: a name, a type and an icon type
(`classviewsymbolinformation.h` is not among the provided sources; these are
the three accessors the code uses). -/
structure SymbolInformation where
  name : String
  type : String
  iconType : Int
deriving DecidableEq

/-- A `QVariant` as used by this code: invalid, a string, an int, or a
user-registered `SymbolLocation` value. -/
inductive QVariant : Type
  | invalid
  | ofString (s : String)
  | ofInt (n : Int)
  | ofLocation (loc : SymbolLocation)
deriving DecidableEq

namespace QVariant

/-- `QVariant::isValid`. -/
def isValid : QVariant → Bool
  | .invalid => false
  | _ => true

/-- `QVariant::toString`: a string variant yields its string, an int variant
its decimal rendering, anything else the empty string. -/
def toQString : QVariant → String
  | .ofString s => s
  | .ofInt n => ToString.toString n
  | _ => ""

/-- `QVariant::toInt(bool *ok)`: `some` when `ok` is set, carrying the value. -/
def toIntOk : QVariant → Option Int
  | .ofInt n => some n
  | .ofString s => s.toInt?
  | _ => none

/-- `QVariant::canConvert<SymbolLocation>()`. -/
def canConvertLocation : QVariant → Bool
  | .ofLocation _ => true
  | _ => false

/-- `QVariant::value<SymbolLocation>()`: the stored location, or a
default-constructed one when the variant holds no location. -/
def toLocationValue : QVariant → SymbolLocation
  | .ofLocation loc => loc
  | _ => default

end QVariant

/-- Modelled from the spec: the item role constants from
`classviewconstants.h` (absent from the provided sources); `Qt::UserRole` is
256 and the class view roles follow it.  Only their distinctness matters. -/
def SymbolLocationsRole : Int := 257

/-- Modelled from the spec: the icon type role (see `SymbolLocationsRole`). -/
def IconTypeRole : Int := 258

/-- Modelled from the spec: the symbol name role (see `SymbolLocationsRole`). -/
def SymbolNameRole : Int := 259

/-- Modelled from the spec: the symbol type role (see `SymbolLocationsRole`). -/
def SymbolTypeRole : Int := 260

/-- The data roles of a `QStandardItem`, as a map from role to variant. -/
def ItemData : Type := Int → QVariant

/-- `QStandardItem::setData(value, role)`. -/
def ItemData.set (item : ItemData) (value : QVariant) (role : Int) : ItemData :=
  fun r => if r = role then value else item r

/-- `Utils::setSymbolInformationToItem` (classviewutils.cpp, lines 138-148):
stores the name, type and icon type of the symbol information into the item's
data roles and returns the item. -/
def setSymbolInformationToItem (information : SymbolInformation)
    (item : ItemData) : ItemData :=
  ((item.set (.ofString information.name) SymbolNameRole).set
      (.ofString information.type) SymbolTypeRole).set
    (.ofInt information.iconType) IconTypeRole

/-- `Utils::symbolInformationFromItem` (classviewutils.cpp, lines 154-174):
reads the name and type roles as strings and the icon type role as an int,
falling back to 0 when the variant is invalid or not convertible. -/
def symbolInformationFromItem (item : ItemData) : SymbolInformation :=
  let name := (item SymbolNameRole).toQString
  let type := (item SymbolTypeRole).toQString
  let var := item IconTypeRole
  let iconType :=
    if var.isValid then
      match var.toIntOk with
      | some value => value
      | none => 0
    else 0
  ⟨name, type, iconType⟩

/-- `Utils::locationsToRole` (classviewutils.cpp, lines 84-91): wraps every
location of the set into a variant.  The `QSet` is modelled by its iteration
sequence, a duplicate-free list. -/
def locationsToRole (locations : List SymbolLocation) : List QVariant :=
  locations.map QVariant.ofLocation

/-- `Utils::roleToLocations` (classviewutils.cpp, lines 100-109): collects
into a set every variant of the list that can convert to a location. -/
def roleToLocations (locationsVar : List QVariant) : Finset SymbolLocation :=
  locationsVar.foldl
    (fun locations loc =>
      if loc.canConvertLocation then insert loc.toLocationValue locations
      else locations)
    ∅

/-- Association list lookup, modelling `QHash<int, int>` access. -/
def alookup : List (Int × Int) → Int → Option Int
  | [], _ => none
  | (k, v) :: rest, key => if key = k then some v else alookup rest key

/-- `QHash<int, int>::insert`: replaces the value when the key is present,
otherwise adds a new entry (`count` grows only in that case). -/
def hashInsert : List (Int × Int) → Int → Int → List (Int × Int)
  | [], k, v => [(k, v)]
  | (k', v') :: rest, k, v =>
      if k' = k then (k', v) :: rest else (k', v') :: hashInsert rest k v

/-- The initialization loop of `Utils::iconTypeSortOrder` (classviewutils.cpp,
lines 120-123): for each icon in the table, insert it with the current entry
count as its sort value. -/
def buildSortOrder (table : List Int) : List (Int × Int) :=
  table.foldl (fun sortOrder i => hashInsert sortOrder i sortOrder.length) []

/-- `Utils::iconTypeSortOrder` (classviewutils.cpp, lines 115-130), with the
table made explicit: a missing icon is returned unchanged, otherwise its
stored sort value is returned. -/
def iconTypeSortOrder (table : List Int) (icon : Int) : Int :=
  match alookup (buildSortOrder table) icon with
  | none => icon
  | some v => v

/-!
Modelled from the spec: the constants of the `Utils::CodeModelIcon` enum from
`cplusplus/Icons.h`, which is not among the provided sources.  They are
modelled as distinct integers in declaration order; only their distinctness
is used by the proofs.
-/

namespace CodeModelIcon

def Class : Int := 0
def Struct : Int := 1
def Enum : Int := 2
def Enumerator : Int := 3
def FuncPublic : Int := 4
def FuncProtected : Int := 5
def FuncPrivate : Int := 6
def FuncPublicStatic : Int := 7
def FuncProtectedStatic : Int := 8
def FuncPrivateStatic : Int := 9
def Namespace : Int := 10
def VarPublic : Int := 11
def VarProtected : Int := 12
def VarPrivate : Int := 13
def VarPublicStatic : Int := 14
def VarProtectedStatic : Int := 15
def VarPrivateStatic : Int := 16
def Signal : Int := 17
def SlotPublic : Int := 18
def SlotProtected : Int := 19
def SlotPrivate : Int := 20
def Keyword : Int := 21
def Macro : Int := 22
def Property : Int := 23
def Unknown : Int := 24

end CodeModelIcon

/-- `Constants::IconSortOrder` (classviewutils.cpp, lines 45-69): the default
icon sort order table. -/
def IconSortOrder : List Int := [
  CodeModelIcon.Namespace,
  CodeModelIcon.Enum,
  CodeModelIcon.Class,
  CodeModelIcon.FuncPublic,
  CodeModelIcon.FuncProtected,
  CodeModelIcon.FuncPrivate,
  CodeModelIcon.FuncPublicStatic,
  CodeModelIcon.FuncProtectedStatic,
  CodeModelIcon.FuncPrivateStatic,
  CodeModelIcon.Signal,
  CodeModelIcon.SlotPublic,
  CodeModelIcon.SlotProtected,
  CodeModelIcon.SlotPrivate,
  CodeModelIcon.VarPublic,
  CodeModelIcon.VarProtected,
  CodeModelIcon.VarPrivate,
  CodeModelIcon.VarPublicStatic,
  CodeModelIcon.VarProtectedStatic,
  CodeModelIcon.VarPrivateStatic,
  CodeModelIcon.Enumerator,
  CodeModelIcon.Keyword,
  CodeModelIcon.Macro,
  CodeModelIcon.Unknown]

end ClassView

namespace Qnx

/-!
Embedding of `QnxUtils::qnxEnvironmentFromEnvFile` (qnxutils.cpp, lines
93-157).  The filesystem and subprocess are modelled as an oracle record: the
existence of the env file, the success of creating the temporary wrapper
script, the finishing of the wrapper process within the timeout, its exit
status and code, and the lines of its standard output.  Strings are modelled
as lists of characters. -/

/-- `Utils::EnvironmentItem`: one environment variable assignment. -/
structure EnvironmentItem where
  name : List Char
  value : List Char
deriving DecidableEq

/-- `QProcess::ExitStatus`. -/
inductive ExitStatus : Type
  | NormalExit
  | CrashExit
deriving DecidableEq

/-- The oracle describing the environment the function runs in. -/
structure EnvFileWorld where
  fileExists : Bool
  tmpFileOpenOk : Bool
  waitResult : Bool
  exitStatus : ExitStatus
  exitCode : Int
  outputLines : List (List Char)

/-- The output-parsing loop (qnxutils.cpp, lines 146-154): for every line,
find the first occurrence of `=`; skip the line when there is none, otherwise
append an item whose name is the text left of it and whose value is the text
right of it. -/
def parseEnvLines : List (List Char) → List EnvironmentItem
  | [] => []
  | line :: rest =>
      match line.findIdx? (· == '=') with
      | none => parseEnvLines rest
      | some equalIndex =>
          ⟨line.take equalIndex, line.drop (equalIndex + 1)⟩ :: parseEnvLines rest

/-- `QnxUtils::qnxEnvironmentFromEnvFile`: early empty returns when the env
file is missing, the wrapper script cannot be created, the process does not
finish in time, or it exits abnormally or with a nonzero code; otherwise the
parsed output lines. -/
def qnxEnvironmentFromEnvFile (w : EnvFileWorld) : List EnvironmentItem :=
  if w.fileExists = false then []
  else if w.tmpFileOpenOk = false then []
  else if w.waitResult = false then []
  else if w.exitStatus ≠ ExitStatus.NormalExit ∨ w.exitCode ≠ 0 then []
  else parseEnvLines w.outputLines

/-- Specification-level reading of one output line, following the words of the
claim: a line containing `=` yields one item whose name is the text before the
first `=` and whose value is the text after it; a line without `=` yields
nothing. -/
def envLineSpec (line : List Char) : Option EnvironmentItem :=
  if '=' ∈ line then
    some ⟨line.takeWhile (fun c => !(c == '=')),
          (line.dropWhile (fun c => !(c == '='))).drop 1⟩
  else none

end Qnx

namespace QmlDump

/-!
Embedding of `QmlDumpTool::qmlDumpPath` (qmldumptool.cpp, lines 275-310).
The tool lookup (`toolForProject`), the Qt version lookup
(`qtVersionForProject`) and the filesystem checks are modelled as an oracle
record; scheduling the background build task has no effect on the returned
path and is not modelled. -/

/-- The oracle describing the project, the tool lookup and the filesystem. -/
structure QmlDumpWorld where
  toolForProject : String
  versionFound : Bool
  fsExists : String → Bool
  fsIsFile : String → Bool

/-- `QmlDumpTool::qmlDumpPath`: look up the tool path; when a Qt version is
known but no tool was found, (after possibly scheduling a background build)
return the empty path; when a tool path was found, clear it unless it refers
to an existing regular file. -/
def qmlDumpPath (w : QmlDumpWorld) : String :=
  let path := w.toolForProject
  if w.versionFound = true ∧ path = "" then path
  else if path ≠ "" then
    if w.fsExists path = false then ""
    else if w.fsIsFile path = false then ""
    else path
  else path

end QmlDump

/-!
Helper lemmas and the theorems checking the specification's claims.
-/

namespace ClassView

variable {α β : Type}

lemma infoForest_eq_map (cs : List (TreeNode α β)) :
    infoForest cs = cs.map infoTree := by
  induction cs with
  | nil => simp [infoForest]
  | cons c cs ih => simp [infoForest, ih]

lemma infoTree_mk (i : α) (e : β) (cs : List (TreeNode α β)) :
    infoTree (.mk i e cs) = .node i (infoForest cs) := by
  simp [infoTree]

lemma infoForest_map_info (cs : List (TreeNode α β)) :
    (infoForest cs).map InfoTree.info = cs.map TreeNode.info := by
  induction cs with
  | nil => simp [infoForest]
  | cons c cs ih =>
      cases c with
      | mk i e cc => simp [infoForest, infoTree, InfoTree.info, TreeNode.info, ih]

lemma map_info_of_infoForest_eq {as bs : List (TreeNode α β)}
    (h : infoForest as = infoForest bs) :
    as.map TreeNode.info = bs.map TreeNode.info := by
  rw [← infoForest_map_info, h, infoForest_map_info]

lemma chainLt_iff_chain' [LinearOrder α] (l : List α) :
    chainLt l = true ↔ l.Chain' (· < ·) := by
  induction l with
  | nil => simp [chainLt]
  | cons a l ih =>
      cases l with
      | nil => simp [chainLt]
      | cons b r => simp [chainLt, List.chain'_cons, ih]

lemma chainSorted_iff_pairwise [LinearOrder α] (cs : List (TreeNode α β)) :
    chainSorted cs = true ↔ cs.Pairwise (fun a b => a.info < b.info) := by
  rw [chainSorted, chainLt_iff_chain', List.chain'_iff_pairwise, List.pairwise_map]

lemma chainSorted_nil [LinearOrder α] : chainSorted ([] : List (TreeNode α β)) = true := rfl

lemma chainSorted_of_cons [LinearOrder α] {c : TreeNode α β} {cs : List (TreeNode α β)}
    (h : chainSorted (c :: cs) = true) : chainSorted cs = true :=
  (chainSorted_iff_pairwise cs).mpr (((chainSorted_iff_pairwise _).mp h).tail)

lemma chainSorted_cons_lt [LinearOrder α] {c : TreeNode α β} {cs : List (TreeNode α β)}
    (h : chainSorted (c :: cs) = true) : ∀ x ∈ cs, c.info < x.info := by
  have := (chainSorted_iff_pairwise _).mp h
  exact fun x hx => (List.pairwise_cons.mp this).1 x hx

lemma forestSorted_nil [LinearOrder α] : forestSorted ([] : List (TreeNode α β)) = true := by
  simp [forestSorted]

lemma forestSorted_cons [LinearOrder α] {c : TreeNode α β} {cs : List (TreeNode α β)}
    (h : forestSorted (c :: cs) = true) :
    treeSorted c = true ∧ forestSorted cs = true := by
  simpa [forestSorted, Bool.and_eq_true] using h

lemma treeSorted_mk [LinearOrder α] {i : α} {e : β} {cs : List (TreeNode α β)}
    (h : treeSorted (.mk i e cs) = true) :
    chainSorted cs = true ∧ forestSorted cs = true := by
  simpa [treeSorted, Bool.and_eq_true] using h

lemma moveChildren_infoForest [LinearOrder α] :
    ∀ is ts : List (TreeNode α β), chainSorted is = true → forestSorted is = true →
      chainSorted ts = true → forestSorted ts = true →
      infoForest (moveChildren is ts) = infoForest ts := by
  intro is ts
  induction is, ts using moveChildren.induct with
  | case1 =>
      intro _ _ _ _
      simp [moveChildren]
  | case2 head tail =>
      intro _ _ _ _
      simp [moveChildren, infoForest]
  | case3 ti te tc ts ih1 ih2 =>
      intro _ _ h3 h4
      obtain ⟨ht, hts⟩ := forestSorted_cons h4
      obtain ⟨htc1, htc2⟩ := treeSorted_mk ht
      rw [moveChildren]
      simp only [infoForest, infoTree]
      rw [ih1 chainSorted_nil forestSorted_nil htc1 htc2,
        ih2 chainSorted_nil forestSorted_nil (chainSorted_of_cons h3) hts]
  | case4 ii ie ic is ti te tc ts hlt ih =>
      intro h1 h2 h3 h4
      obtain ⟨_, his⟩ := forestSorted_cons h2
      rw [moveChildren, if_pos hlt]
      exact ih (chainSorted_of_cons h1) his h3 h4
  | case5 ie ic is ti te tc ts hnlt ih1 ih2 =>
      intro h1 h2 h3 h4
      obtain ⟨hi, his⟩ := forestSorted_cons h2
      obtain ⟨hic1, hic2⟩ := treeSorted_mk hi
      obtain ⟨ht, hts⟩ := forestSorted_cons h4
      obtain ⟨htc1, htc2⟩ := treeSorted_mk ht
      rw [moveChildren, if_neg hnlt, if_pos rfl]
      simp only [infoForest, infoTree]
      rw [ih1 hic1 hic2 htc1 htc2,
        ih2 (chainSorted_of_cons h1) his (chainSorted_of_cons h3) hts]
  | case6 ii ie ic is ti te tc ts hnlt hne ih1 ih2 =>
      intro h1 h2 h3 h4
      obtain ⟨ht, hts⟩ := forestSorted_cons h4
      obtain ⟨htc1, htc2⟩ := treeSorted_mk ht
      rw [moveChildren, if_neg hnlt, if_neg hne]
      simp only [infoForest, infoTree]
      rw [ih1 chainSorted_nil forestSorted_nil htc1 htc2,
        ih2 h1 h2 (chainSorted_of_cons h3) hts]

end ClassView

namespace ClassView

variable {α β : Type}

lemma moveChildren_nil_eq_cloneForest [LinearOrder α] :
    ∀ is ts : List (TreeNode α β), is = [] → moveChildren is ts = cloneForest ts := by
  intro is ts
  induction is, ts using moveChildren.induct with
  | case1 =>
      intro _
      simp [moveChildren, cloneForest]
  | case2 head tail =>
      intro h
      exact absurd h (List.cons_ne_nil _ _)
  | case3 ti te tc ts ih1 ih2 =>
      intro _
      rw [moveChildren, ih1 rfl, ih2 rfl]
      simp [cloneForest, cloneTree]
  | case4 ii ie ic is ti te tc ts hlt ih =>
      intro h
      exact absurd h (List.cons_ne_nil _ _)
  | case5 ie ic is ti te tc ts hnlt ih1 ih2 =>
      intro h
      exact absurd h (List.cons_ne_nil _ _)
  | case6 ii ie ic is ti te tc ts hnlt hne ih1 ih2 =>
      intro h
      exact absurd h (List.cons_ne_nil _ _)

lemma chainSorted_congr [LinearOrder α] {as bs : List (TreeNode α β)}
    (h : as.map TreeNode.info = bs.map TreeNode.info) :
    chainSorted as = chainSorted bs := by
  unfold chainSorted
  rw [h]

lemma find?_info_cons_ne [LinearOrder α] {i : TreeNode α β} {is : List (TreeNode α β)}
    {a : α} (h : ¬ i.info = a) :
    (i :: is).find? (fun x => decide (x.info = a)) = is.find? (fun x => decide (x.info = a)) :=
  List.find?_cons_of_neg _ (by simpa using h)

lemma reconcileSpec_drop_head [LinearOrder α] {i : TreeNode α β}
    {is ts : List (TreeNode α β)} (h : ∀ t ∈ ts, ¬ i.info = t.info) :
    reconcileSpec (i :: is) ts = reconcileSpec is ts := by
  unfold reconcileSpec
  refine List.map_congr_left fun t ht => ?_
  rw [find?_info_cons_ne (h t ht)]

lemma moveChildren_eq_reconcileSpec [LinearOrder α] :
    ∀ is ts : List (TreeNode α β), chainSorted is = true → chainSorted ts = true →
      moveChildren is ts = reconcileSpec is ts := by
  intro is ts
  induction is, ts using moveChildren.induct with
  | case1 =>
      intro _ _
      simp [moveChildren, reconcileSpec]
  | case2 head tail =>
      intro _ _
      simp [moveChildren, reconcileSpec]
  | case3 ti te tc ts ih1 ih2 =>
      intro _ h2
      rw [moveChildren, ih2 chainSorted_nil (chainSorted_of_cons h2)]
      rw [moveChildren_nil_eq_cloneForest [] tc rfl]
      unfold reconcileSpec
      simp [cloneTree]
  | case4 ii ie ic is ti te tc ts hlt ih =>
      intro h1 h2
      rw [moveChildren, if_pos hlt, ih (chainSorted_of_cons h1) h2]
      refine (reconcileSpec_drop_head fun t ht => ?_).symm
      rcases List.mem_cons.mp ht with rfl | ht
      · exact ne_of_lt hlt
      · exact ne_of_lt (lt_trans hlt (chainSorted_cons_lt h2 t ht))
  | case5 ie ic is ti te tc ts hnlt ih1 ih2 =>
      intro h1 h2
      rw [moveChildren, if_neg hnlt, if_pos rfl,
        ih2 (chainSorted_of_cons h1) (chainSorted_of_cons h2)]
      have hhead : (TreeNode.mk ti ie ic :: is).find?
          (fun x => decide (x.info = (TreeNode.mk ti te tc).info)) =
          some (TreeNode.mk ti ie ic) :=
        List.find?_cons_of_pos _ (by simp [TreeNode.info])
      have htail : reconcileSpec (TreeNode.mk ti ie ic :: is) ts = reconcileSpec is ts := by
        refine reconcileSpec_drop_head fun t ht => ?_
        have : (TreeNode.mk ti te tc).info < t.info := chainSorted_cons_lt h2 t ht
        simpa [TreeNode.info] using ne_of_lt this
      conv_rhs => unfold reconcileSpec
      simp only [List.map_cons, hhead]
      rw [show ts.map _ = reconcileSpec (TreeNode.mk ti ie ic :: is) ts from rfl, htail]
      simp [TreeNode.info, TreeNode.extra, TreeNode.children, reconcileSpec]
  | case6 ii ie ic is ti te tc ts hnlt hne ih1 ih2 =>
      intro h1 h2
      have htilt : ti < ii := lt_of_le_of_ne (not_lt.mp hnlt) fun h => hne h.symm
      rw [moveChildren, if_neg hnlt, if_neg hne, ih2 h1 (chainSorted_of_cons h2)]
      have hhead : (TreeNode.mk ii ie ic :: is).find?
          (fun x => decide (x.info = (TreeNode.mk ti te tc).info)) = none := by
        rw [List.find?_eq_none]
        intro x hx
        rcases List.mem_cons.mp hx with rfl | hx
        · simpa [TreeNode.info] using ne_of_gt htilt
        · have : ii < x.info := by
            simpa [TreeNode.info] using chainSorted_cons_lt h1 x hx
          simpa [TreeNode.info] using ne_of_gt (lt_trans htilt this)
      conv_rhs => unfold reconcileSpec
      simp only [List.map_cons, hhead]
      rw [show ts.map _ = reconcileSpec (TreeNode.mk ii ie ic :: is) ts from rfl]
      rw [moveChildren_nil_eq_cloneForest [] tc rfl]
      simp [cloneTree, TreeNode.info]

end ClassView

namespace ClassView

variable {α β : Type}

lemma chainSorted_moveChildren [LinearOrder α] {is ts : List (TreeNode α β)}
    (h1 : chainSorted is = true) (h2 : forestSorted is = true)
    (h3 : chainSorted ts = true) (h4 : forestSorted ts = true) :
    chainSorted (moveChildren is ts) = true := by
  rw [chainSorted_congr (map_info_of_infoForest_eq (moveChildren_infoForest is ts h1 h2 h3 h4))]
  exact h3

lemma moveChildren_forestSorted [LinearOrder α] :
    ∀ is ts : List (TreeNode α β), chainSorted is = true → forestSorted is = true →
      chainSorted ts = true → forestSorted ts = true →
      forestSorted (moveChildren is ts) = true := by
  intro is ts
  induction is, ts using moveChildren.induct with
  | case1 =>
      intro _ _ _ _
      simp [moveChildren, forestSorted]
  | case2 head tail =>
      intro _ _ _ _
      simp [moveChildren, forestSorted]
  | case3 ti te tc ts ih1 ih2 =>
      intro _ _ h3 h4
      obtain ⟨ht, hts⟩ := forestSorted_cons h4
      obtain ⟨htc1, htc2⟩ := treeSorted_mk ht
      rw [moveChildren]
      simp only [forestSorted, treeSorted, Bool.and_eq_true]
      exact ⟨⟨chainSorted_moveChildren chainSorted_nil forestSorted_nil htc1 htc2,
        ih1 chainSorted_nil forestSorted_nil htc1 htc2⟩,
        ih2 chainSorted_nil forestSorted_nil (chainSorted_of_cons h3) hts⟩
  | case4 ii ie ic is ti te tc ts hlt ih =>
      intro h1 h2 h3 h4
      obtain ⟨_, his⟩ := forestSorted_cons h2
      rw [moveChildren, if_pos hlt]
      exact ih (chainSorted_of_cons h1) his h3 h4
  | case5 ie ic is ti te tc ts hnlt ih1 ih2 =>
      intro h1 h2 h3 h4
      obtain ⟨hi, his⟩ := forestSorted_cons h2
      obtain ⟨hic1, hic2⟩ := treeSorted_mk hi
      obtain ⟨ht, hts⟩ := forestSorted_cons h4
      obtain ⟨htc1, htc2⟩ := treeSorted_mk ht
      rw [moveChildren, if_neg hnlt, if_pos rfl]
      simp only [forestSorted, treeSorted, Bool.and_eq_true]
      exact ⟨⟨chainSorted_moveChildren hic1 hic2 htc1 htc2, ih1 hic1 hic2 htc1 htc2⟩,
        ih2 (chainSorted_of_cons h1) his (chainSorted_of_cons h3) hts⟩
  | case6 ii ie ic is ti te tc ts hnlt hne ih1 ih2 =>
      intro h1 h2 h3 h4
      obtain ⟨ht, hts⟩ := forestSorted_cons h4
      obtain ⟨htc1, htc2⟩ := treeSorted_mk ht
      rw [moveChildren, if_neg hnlt, if_neg hne]
      simp only [forestSorted, treeSorted, Bool.and_eq_true]
      exact ⟨⟨chainSorted_moveChildren chainSorted_nil forestSorted_nil htc1 htc2,
        ih1 chainSorted_nil forestSorted_nil htc1 htc2⟩,
        ih2 h1 h2 (chainSorted_of_cons h3) hts⟩

lemma fetchChildren_sublist_item [LinearOrder α] :
    ∀ is ts : List (TreeNode α β), is.Sublist (fetchChildren is ts) := by
  intro is ts
  induction is, ts using fetchChildren.induct with
  | case1 is => rw [fetchChildren]
  | case2 ti te tc ts ih =>
      rw [fetchChildren]
      exact List.nil_sublist _
  | case3 ii ie ic is ti te tc ts hlt ih =>
      rw [fetchChildren, if_pos hlt]
      exact ih.cons₂ _
  | case4 ie ic is ti te tc ts hnlt ih =>
      rw [fetchChildren, if_neg hnlt, if_pos rfl]
      exact ih.cons₂ _
  | case5 ii ie ic is ti te tc ts hnlt hne ih =>
      rw [fetchChildren, if_neg hnlt, if_neg hne]
      exact ih.cons _

lemma fetchChildren_sublist_target [LinearOrder α] :
    ∀ is ts : List (TreeNode α β),
      (ts.map TreeNode.info).Sublist ((fetchChildren is ts).map TreeNode.info) := by
  intro is ts
  induction is, ts using fetchChildren.induct with
  | case1 is =>
      rw [fetchChildren]
      exact List.nil_sublist _
  | case2 ti te tc ts ih =>
      rw [fetchChildren]
      simpa [TreeNode.info] using ih.cons₂ ti
  | case3 ii ie ic is ti te tc ts hlt ih =>
      rw [fetchChildren, if_pos hlt]
      simpa [TreeNode.info] using ih.cons ii
  | case4 ie ic is ti te tc ts hnlt ih =>
      rw [fetchChildren, if_neg hnlt, if_pos rfl]
      simpa [TreeNode.info] using ih.cons₂ ti
  | case5 ii ie ic is ti te tc ts hnlt hne ih =>
      rw [fetchChildren, if_neg hnlt, if_neg hne]
      simpa [TreeNode.info] using ih.cons₂ ti

lemma fetchChildren_mem_info [LinearOrder α] :
    ∀ is ts : List (TreeNode α β), ∀ x ∈ fetchChildren is ts,
      x.info ∈ is.map TreeNode.info ∨ x.info ∈ ts.map TreeNode.info := by
  intro is ts
  induction is, ts using fetchChildren.induct with
  | case1 is =>
      rw [fetchChildren]
      intro x hx
      exact Or.inl (List.mem_map_of_mem _ hx)
  | case2 ti te tc ts ih =>
      rw [fetchChildren]
      intro x hx
      rcases List.mem_cons.mp hx with rfl | hx
      · exact Or.inr (by simp [TreeNode.info])
      · rcases ih x hx with h | h
        · exact Or.inl h
        · exact Or.inr (by simp [h])
  | case3 ii ie ic is ti te tc ts hlt ih =>
      rw [fetchChildren, if_pos hlt]
      intro x hx
      rcases List.mem_cons.mp hx with rfl | hx
      · exact Or.inl (by simp [TreeNode.info])
      · rcases ih x hx with h | h
        · exact Or.inl (by simp [h])
        · exact Or.inr h
  | case4 ie ic is ti te tc ts hnlt ih =>
      rw [fetchChildren, if_neg hnlt, if_pos rfl]
      intro x hx
      rcases List.mem_cons.mp hx with rfl | hx
      · exact Or.inl (by simp [TreeNode.info])
      · rcases ih x hx with h | h
        · exact Or.inl (by simp [h])
        · exact Or.inr (by simp [h])
  | case5 ii ie ic is ti te tc ts hnlt hne ih =>
      rw [fetchChildren, if_neg hnlt, if_neg hne]
      intro x hx
      rcases List.mem_cons.mp hx with rfl | hx
      · exact Or.inr (by simp [TreeNode.info])
      · rcases ih x hx with h | h
        · exact Or.inl h
        · exact Or.inr (by simp [h])

end ClassView

namespace ClassView

variable {α β : Type}

lemma chainSorted_cons_intro [LinearOrder α] {c : TreeNode α β} {cs : List (TreeNode α β)}
    (h1 : ∀ x ∈ cs, c.info < x.info) (h2 : chainSorted cs = true) :
    chainSorted (c :: cs) = true :=
  (chainSorted_iff_pairwise _).mpr
    (List.pairwise_cons.mpr ⟨h1, (chainSorted_iff_pairwise _).mp h2⟩)

lemma treeSorted_leaf [LinearOrder α] (i : α) (e : β) :
    treeSorted (TreeNode.mk i e ([] : List (TreeNode α β))) = true := by
  simp [treeSorted, forestSorted, chainSorted, chainLt]

lemma fetchChildren_chainSorted [LinearOrder α] :
    ∀ is ts : List (TreeNode α β), chainSorted is = true → chainSorted ts = true →
      chainSorted (fetchChildren is ts) = true := by
  intro is ts
  induction is, ts using fetchChildren.induct with
  | case1 is =>
      rw [fetchChildren]
      exact fun h _ => h
  | case2 ti te tc ts ih =>
      intro h1 h2
      rw [fetchChildren]
      refine chainSorted_cons_intro (fun x hx => ?_) (ih chainSorted_nil (chainSorted_of_cons h2))
      rcases fetchChildren_mem_info [] ts x hx with h | h
      · simp at h
      · rcases List.mem_map.mp h with ⟨y, hy, hxy⟩
        rw [← hxy]
        simpa [TreeNode.info] using chainSorted_cons_lt h2 y hy
  | case3 ii ie ic is ti te tc ts hlt ih =>
      intro h1 h2
      rw [fetchChildren, if_pos hlt]
      refine chainSorted_cons_intro (fun x hx => ?_) (ih (chainSorted_of_cons h1) h2)
      rcases fetchChildren_mem_info is (TreeNode.mk ti te tc :: ts) x hx with h | h
      · rcases List.mem_map.mp h with ⟨y, hy, hxy⟩
        rw [← hxy]
        exact chainSorted_cons_lt h1 y hy
      · rcases List.mem_map.mp h with ⟨y, hy, hxy⟩
        rw [← hxy]
        rcases List.mem_cons.mp hy with rfl | hy
        · simpa [TreeNode.info] using hlt
        · exact lt_trans (by simpa [TreeNode.info] using hlt) (chainSorted_cons_lt h2 y hy)
  | case4 ie ic is ti te tc ts hnlt ih =>
      intro h1 h2
      rw [fetchChildren, if_neg hnlt, if_pos rfl]
      refine chainSorted_cons_intro (fun x hx => ?_)
        (ih (chainSorted_of_cons h1) (chainSorted_of_cons h2))
      rcases fetchChildren_mem_info is ts x hx with h | h
      · rcases List.mem_map.mp h with ⟨y, hy, hxy⟩
        rw [← hxy]
        exact chainSorted_cons_lt h1 y hy
      · rcases List.mem_map.mp h with ⟨y, hy, hxy⟩
        rw [← hxy]
        simpa [TreeNode.info] using chainSorted_cons_lt h2 y hy
  | case5 ii ie ic is ti te tc ts hnlt hne ih =>
      intro h1 h2
      have htilt : ti < ii := lt_of_le_of_ne (not_lt.mp hnlt) fun h => hne h.symm
      rw [fetchChildren, if_neg hnlt, if_neg hne]
      refine chainSorted_cons_intro (fun x hx => ?_) (ih h1 (chainSorted_of_cons h2))
      rcases fetchChildren_mem_info (TreeNode.mk ii ie ic :: is) ts x hx with h | h
      · rcases List.mem_map.mp h with ⟨y, hy, hxy⟩
        rw [← hxy]
        rcases List.mem_cons.mp hy with rfl | hy
        · simpa [TreeNode.info] using htilt
        · exact lt_trans (by simpa [TreeNode.info] using htilt) (chainSorted_cons_lt h1 y hy)
      · rcases List.mem_map.mp h with ⟨y, hy, hxy⟩
        rw [← hxy]
        simpa [TreeNode.info] using chainSorted_cons_lt h2 y hy

lemma fetchChildren_forestSorted [LinearOrder α] :
    ∀ is ts : List (TreeNode α β), forestSorted is = true →
      forestSorted (fetchChildren is ts) = true := by
  intro is ts
  induction is, ts using fetchChildren.induct with
  | case1 is =>
      rw [fetchChildren]
      exact fun h => h
  | case2 ti te tc ts ih =>
      intro h
      rw [fetchChildren]
      simp only [forestSorted, Bool.and_eq_true]
      exact ⟨treeSorted_leaf ti te, ih h⟩
  | case3 ii ie ic is ti te tc ts hlt ih =>
      intro h
      obtain ⟨hi, his⟩ := forestSorted_cons h
      rw [fetchChildren, if_pos hlt]
      simp only [forestSorted, Bool.and_eq_true]
      exact ⟨hi, ih his⟩
  | case4 ie ic is ti te tc ts hnlt ih =>
      intro h
      obtain ⟨hi, his⟩ := forestSorted_cons h
      rw [fetchChildren, if_neg hnlt, if_pos rfl]
      simp only [forestSorted, Bool.and_eq_true]
      exact ⟨hi, ih his⟩
  | case5 ii ie ic is ti te tc ts hnlt hne ih =>
      intro h
      rw [fetchChildren, if_neg hnlt, if_neg hne]
      simp only [forestSorted, Bool.and_eq_true]
      exact ⟨treeSorted_leaf ti te, ih h⟩

lemma moveChildrenFuel_spec [LinearOrder α] :
    ∀ is ts : List (TreeNode α β), ∃ n : Nat, ∀ m, n ≤ m →
      moveChildrenFuel m is ts = some (moveChildren is ts) := by
  intro is ts
  induction is, ts using moveChildren.induct with
  | case1 =>
      refine ⟨1, fun m hm => ?_⟩
      match m, hm with
      | m + 1, _ => simp [moveChildrenFuel, moveChildren]
  | case2 head tail =>
      refine ⟨1, fun m hm => ?_⟩
      match m, hm with
      | m + 1, _ => simp [moveChildrenFuel, moveChildren]
  | case3 ti te tc ts ih1 ih2 =>
      obtain ⟨n1, h1⟩ := ih1
      obtain ⟨n2, h2⟩ := ih2
      refine ⟨max n1 n2 + 1, fun m hm => ?_⟩
      match m, hm with
      | m + 1, hm =>
          have hm' : max n1 n2 ≤ m := Nat.le_of_succ_le_succ hm
          rw [moveChildrenFuel, h1 m (le_trans (le_max_left _ _) hm'),
            h2 m (le_trans (le_max_right _ _) hm'), moveChildren]
          rfl
  | case4 ii ie ic is ti te tc ts hlt ih =>
      obtain ⟨n, h⟩ := ih
      refine ⟨n + 1, fun m hm => ?_⟩
      match m, hm with
      | m + 1, hm =>
          rw [moveChildrenFuel, if_pos hlt, h m (Nat.le_of_succ_le_succ hm),
            moveChildren, if_pos hlt]
  | case5 ie ic is ti te tc ts hnlt ih1 ih2 =>
      obtain ⟨n1, h1⟩ := ih1
      obtain ⟨n2, h2⟩ := ih2
      refine ⟨max n1 n2 + 1, fun m hm => ?_⟩
      match m, hm with
      | m + 1, hm =>
          have hm' : max n1 n2 ≤ m := Nat.le_of_succ_le_succ hm
          rw [moveChildrenFuel, if_neg hnlt, if_pos rfl,
            h1 m (le_trans (le_max_left _ _) hm'),
            h2 m (le_trans (le_max_right _ _) hm'),
            moveChildren, if_neg hnlt, if_pos rfl]
          rfl
  | case6 ii ie ic is ti te tc ts hnlt hne ih1 ih2 =>
      obtain ⟨n1, h1⟩ := ih1
      obtain ⟨n2, h2⟩ := ih2
      refine ⟨max n1 n2 + 1, fun m hm => ?_⟩
      match m, hm with
      | m + 1, hm =>
          have hm' : max n1 n2 ≤ m := Nat.le_of_succ_le_succ hm
          rw [moveChildrenFuel, if_neg hnlt, if_neg hne,
            h1 m (le_trans (le_max_left _ _) hm'),
            h2 m (le_trans (le_max_right _ _) hm'),
            moveChildren, if_neg hnlt, if_neg hne]
          rfl

end ClassView

namespace ClassView

variable {α β : Type}

/-- C1: for finite trees whose child lists are strictly sorted at every node,
`moveItemToTarget item target` makes the live item carry, node for node and
level by level, the same symbol information as the target tree: its child
forest has the information skeleton of the target's child forest, and the
whole result has the same information skeleton as the naive full rebuild that
discards the item's children and clones the target wholesale. -/
theorem moveItemToTarget_converges_to_target [LinearOrder α] (item target : TreeNode α β)
    (hitem : treeSorted item = true) (htarget : treeSorted target = true) :
    infoForest (moveItemToTarget item target).children = infoForest target.children ∧
    infoTree (moveItemToTarget item target) = infoTree (naiveRebuild item target) := by
  cases item with
  | mk ii ie ic =>
      cases target with
      | mk ti te tc =>
          obtain ⟨hic1, hic2⟩ := treeSorted_mk hitem
          obtain ⟨htc1, htc2⟩ := treeSorted_mk htarget
          have hinfo := moveChildren_infoForest ic tc hic1 hic2 htc1 htc2
          have hclone : infoForest (cloneForest tc) = infoForest tc := by
            rw [← moveChildren_nil_eq_cloneForest [] tc rfl]
            exact moveChildren_infoForest [] tc chainSorted_nil forestSorted_nil htc1 htc2
          constructor
          · simpa [moveItemToTarget, TreeNode.children] using hinfo
          · simp [moveItemToTarget, naiveRebuild, infoTree, TreeNode.children,
              TreeNode.info, TreeNode.extra, hinfo, hclone]

/-- Witness for C1 at a concrete pair of sorted trees. -/
theorem moveItemToTarget_converges_to_target_witness :
    treeSorted (TreeNode.mk (0 : Int) (0 : Int)
        [TreeNode.mk 1 11 [], TreeNode.mk 2 12 []]) = true ∧
    treeSorted (TreeNode.mk (7 : Int) (7 : Int)
        [TreeNode.mk 2 22 [TreeNode.mk 3 33 []], TreeNode.mk 4 44 []]) = true ∧
    infoTree (moveItemToTarget
        (TreeNode.mk (0 : Int) (0 : Int) [TreeNode.mk 1 11 [], TreeNode.mk 2 12 []])
        (TreeNode.mk 7 7 [TreeNode.mk 2 22 [TreeNode.mk 3 33 []], TreeNode.mk 4 44 []])) =
      infoTree (naiveRebuild
        (TreeNode.mk 0 0 [TreeNode.mk 1 11 [], TreeNode.mk 2 12 []])
        (TreeNode.mk 7 7 [TreeNode.mk 2 22 [TreeNode.mk 3 33 []], TreeNode.mk 4 44 []])) :=
  ⟨by decide, by decide,
    (moveItemToTarget_converges_to_target _ _ (by decide) (by decide)).2⟩

/-- C3: for trees whose child lists are strictly sorted at every node, both
`moveItemToTarget` and `fetchItemToTarget` leave every child list of the live
item strictly sorted by the ordering. -/
theorem reconcile_preserves_sort_order [LinearOrder α] (item target : TreeNode α β)
    (hitem : treeSorted item = true) (htarget : treeSorted target = true) :
    treeSorted (moveItemToTarget item target) = true ∧
    treeSorted (fetchItemToTarget item target) = true := by
  cases item with
  | mk ii ie ic =>
      cases target with
      | mk ti te tc =>
          obtain ⟨hic1, hic2⟩ := treeSorted_mk hitem
          obtain ⟨htc1, htc2⟩ := treeSorted_mk htarget
          constructor
          · simp only [moveItemToTarget, TreeNode.children, TreeNode.info, TreeNode.extra,
              treeSorted, Bool.and_eq_true]
            exact ⟨chainSorted_moveChildren hic1 hic2 htc1 htc2,
              moveChildren_forestSorted ic tc hic1 hic2 htc1 htc2⟩
          · simp only [fetchItemToTarget, TreeNode.children, TreeNode.info, TreeNode.extra,
              treeSorted, Bool.and_eq_true]
            exact ⟨fetchChildren_chainSorted ic tc hic1 htc1,
              fetchChildren_forestSorted ic tc hic2⟩

/-- Witness for C3 at a concrete pair of sorted trees. -/
theorem reconcile_preserves_sort_order_witness :
    treeSorted (TreeNode.mk (5 : Int) (5 : Int)
        [TreeNode.mk 1 0 [], TreeNode.mk 4 0 []]) = true ∧
    treeSorted (TreeNode.mk (6 : Int) (6 : Int)
        [TreeNode.mk 2 0 [TreeNode.mk 8 0 []], TreeNode.mk 4 1 []]) = true ∧
    treeSorted (moveItemToTarget
        (TreeNode.mk (5 : Int) (5 : Int) [TreeNode.mk 1 0 [], TreeNode.mk 4 0 []])
        (TreeNode.mk 6 6 [TreeNode.mk 2 0 [TreeNode.mk 8 0 []], TreeNode.mk 4 1 []])) = true ∧
    treeSorted (fetchItemToTarget
        (TreeNode.mk (5 : Int) (5 : Int) [TreeNode.mk 1 0 [], TreeNode.mk 4 0 []])
        (TreeNode.mk 6 6 [TreeNode.mk 2 0 [TreeNode.mk 8 0 []], TreeNode.mk 4 1 []])) = true :=
  ⟨by decide, by decide,
    (reconcile_preserves_sort_order _ _ (by decide) (by decide)).1,
    (reconcile_preserves_sort_order _ _ (by decide) (by decide)).2⟩

/-- C4: for sorted trees, `moveItemToTarget` avoids a full rebuild: its result
child list is exactly the target child list where every target child matched
by symbol information keeps the live item's child node (its own data, with
only its descendants reconciled recursively), unmatched target children are
inserted as fresh clones, and unmatched live children are removed. -/
theorem moveItemToTarget_frame [LinearOrder α] (item target : TreeNode α β)
    (hitem : treeSorted item = true) (htarget : treeSorted target = true) :
    (moveItemToTarget item target).children = reconcileSpec item.children target.children := by
  cases item with
  | mk ii ie ic =>
      cases target with
      | mk ti te tc =>
          obtain ⟨hic1, _⟩ := treeSorted_mk hitem
          obtain ⟨htc1, _⟩ := treeSorted_mk htarget
          simpa [moveItemToTarget, TreeNode.children] using
            moveChildren_eq_reconcileSpec ic tc hic1 htc1

/-- Witness for C4 at a concrete pair of sorted trees. -/
theorem moveItemToTarget_frame_witness :
    treeSorted (TreeNode.mk (3 : Int) (3 : Int)
        [TreeNode.mk 1 100 [], TreeNode.mk 2 200 []]) = true ∧
    treeSorted (TreeNode.mk (9 : Int) (9 : Int)
        [TreeNode.mk 2 0 [], TreeNode.mk 7 0 []]) = true ∧
    (moveItemToTarget
        (TreeNode.mk (3 : Int) (3 : Int) [TreeNode.mk 1 100 [], TreeNode.mk 2 200 []])
        (TreeNode.mk 9 9 [TreeNode.mk 2 0 [], TreeNode.mk 7 0 []])).children =
      reconcileSpec [TreeNode.mk 1 100 [], TreeNode.mk 2 200 []]
        [TreeNode.mk 2 0 [], TreeNode.mk 7 0 []] :=
  ⟨by decide, by decide,
    moveItemToTarget_frame _ _ (by decide) (by decide)⟩

/-- C5: the reconciliation terminates on every input, without any sortedness
precondition: for every pair of finite trees there is a fuel bound under
which the fuelled loop interpreter reaches a return, with the same result as
the total function defined by well-founded recursion on the target tree. -/
theorem moveItemToTarget_terminates [LinearOrder α] (item target : TreeNode α β) :
    ∃ fuel : Nat,
      moveItemToTargetFuel fuel item target = some (moveItemToTarget item target) := by
  obtain ⟨n, h⟩ := moveChildrenFuel_spec item.children target.children
  exact ⟨n, by simp [moveItemToTargetFuel, moveItemToTarget, h n le_rfl]⟩

end ClassView

namespace ClassView

variable {α β : Type}

/-- C2 counterexample: `fetchItemToTarget` does not converge the live child
list to the target child list.  With a sorted live item owning one child and
an empty sorted target, the live child list still holds that child afterwards
(the code never removes children), so the child information sequences differ. -/
theorem fetchItemToTarget_not_converging :
    treeSorted (TreeNode.mk (0 : Int) (0 : Int) [TreeNode.mk 1 1 []]) = true ∧
    treeSorted (TreeNode.mk (0 : Int) (0 : Int) ([] : List (TreeNode Int Int))) = true ∧
    ¬ ((fetchItemToTarget (TreeNode.mk (0 : Int) (0 : Int) [TreeNode.mk 1 1 []])
          (TreeNode.mk 0 0 [])).children.map TreeNode.info
        = ((TreeNode.mk (0 : Int) (0 : Int)
            ([] : List (TreeNode Int Int))).children.map TreeNode.info)) := by
  refine ⟨by decide, by decide, ?_⟩
  simp [fetchItemToTarget, fetchChildren, TreeNode.children, TreeNode.info]

/-- C2 (amended): `fetchItemToTarget` reconciles by insertion only.  The live
item's original children survive in order as a subsequence of the resulting
child list, the full symbol information sequence of the target's children
appears in order in the result, and every resulting child carries the symbol
information of an original live child or of a target child; the live child
list converges to the target's in that sense, but it is not made equal to it
because nothing is ever removed. -/
theorem fetchItemToTarget_inserts_only [LinearOrder α] (item target : TreeNode α β) :
    item.children.Sublist (fetchItemToTarget item target).children ∧
    (target.children.map TreeNode.info).Sublist
      ((fetchItemToTarget item target).children.map TreeNode.info) ∧
    ∀ x ∈ (fetchItemToTarget item target).children,
      x.info ∈ item.children.map TreeNode.info ∨
        x.info ∈ target.children.map TreeNode.info := by
  cases item with
  | mk ii ie ic =>
      cases target with
      | mk ti te tc =>
          exact ⟨fetchChildren_sublist_item ic tc, fetchChildren_sublist_target ic tc,
            fetchChildren_mem_info ic tc⟩

end ClassView

namespace ClassView

/-- C8: storing a symbol information into an item's data roles and reading it
back yields the same symbol information: the name and type are read back as
the stored strings and the icon type as the stored int. -/
theorem symbolInformation_roundtrip (information : SymbolInformation) (item : ItemData) :
    symbolInformationFromItem (setSymbolInformationToItem information item) = information := by
  cases information with
  | mk n t i =>
      simp [symbolInformationFromItem, setSymbolInformationToItem, ItemData.set,
        SymbolNameRole, SymbolTypeRole, IconTypeRole,
        QVariant.toQString, QVariant.isValid, QVariant.toIntOk]

lemma roleToLocations_locationsToRole_aux :
    ∀ (locs : List SymbolLocation) (acc : Finset SymbolLocation),
      (locationsToRole locs).foldl
        (fun locations loc =>
          if loc.canConvertLocation then insert loc.toLocationValue locations
          else locations) acc
      = acc ∪ locs.toFinset := by
  intro locs
  induction locs with
  | nil =>
      intro acc
      simp [locationsToRole]
  | cons a rest ih =>
      intro acc
      have hstep : locationsToRole (a :: rest) =
          QVariant.ofLocation a :: locationsToRole rest := by
        simp [locationsToRole]
      rw [hstep, List.foldl_cons]
      have hred : (if (QVariant.ofLocation a).canConvertLocation = true
            then insert (QVariant.ofLocation a).toLocationValue acc
            else acc) = insert a acc := by
        simp [QVariant.canConvertLocation, QVariant.toLocationValue]
      rw [hred, ih (insert a acc), List.toFinset_cons, Finset.insert_union,
        Finset.union_insert]

/-- C9: converting a finite set of symbol locations (modelled by its
duplicate-free iteration sequence) to a variant list and back yields the same
set: every element survives and no extra element appears. -/
theorem roleToLocations_locationsToRole (locs : List SymbolLocation)
    (_hnd : locs.Nodup) :
    roleToLocations (locationsToRole locs) = locs.toFinset := by
  rw [roleToLocations, roleToLocations_locationsToRole_aux locs ∅, Finset.empty_union]

/-- Witness for C9 at a concrete two-element set. -/
theorem roleToLocations_locationsToRole_witness :
    ([⟨"a", 1, 2⟩, ⟨"b", 3, 4⟩] : List SymbolLocation).Nodup ∧
    roleToLocations (locationsToRole [⟨"a", 1, 2⟩, ⟨"b", 3, 4⟩]) =
      ([⟨"a", 1, 2⟩, ⟨"b", 3, 4⟩] : List SymbolLocation).toFinset :=
  ⟨by decide, roleToLocations_locationsToRole _ (by decide)⟩

lemma alookup_hashInsert (h : List (Int × Int)) (k v key : Int) :
    alookup (hashInsert h k v) key = if key = k then some v else alookup h key := by
  induction h with
  | nil => simp [hashInsert, alookup]
  | cons p rest ih =>
      obtain ⟨k1, v1⟩ := p
      by_cases hk : k1 = k
      · subst hk
        by_cases hkey : key = k1 <;> simp [hashInsert, alookup, hkey]
      · by_cases hkey : key = k1
        · subst hkey
          simp [hashInsert, hk, alookup]
        · simp [hashInsert, hk, alookup, hkey, ih]

lemma hashInsert_length_fresh (h : List (Int × Int)) (k v : Int)
    (hfresh : alookup h k = none) : (hashInsert h k v).length = h.length + 1 := by
  induction h with
  | nil => simp [hashInsert]
  | cons p rest ih =>
      obtain ⟨k1, v1⟩ := p
      rw [alookup] at hfresh
      by_cases hk : k = k1
      · rw [if_pos hk] at hfresh
        cases hfresh
      · rw [if_neg hk] at hfresh
        rw [hashInsert, if_neg (fun h => hk h.symm)]
        simp [ih hfresh]

lemma buildAux_lookup_not_mem :
    ∀ (table : List Int) (h0 : List (Int × Int)) (key : Int), key ∉ table →
      alookup (table.foldl (fun sortOrder i => hashInsert sortOrder i sortOrder.length) h0) key
        = alookup h0 key := by
  intro table
  induction table with
  | nil =>
      intro h0 key _
      simp
  | cons k rest ih =>
      intro h0 key hk
      rw [List.foldl_cons, ih _ _ (fun (h : key ∈ rest) => hk (List.mem_cons_of_mem _ h)),
        alookup_hashInsert, if_neg (fun (h : key = k) => hk (by rw [h]; exact List.mem_cons_self _ _))]

lemma buildAux_lookup_get :
    ∀ (table : List Int) (h0 : List (Int × Int)), table.Nodup →
      (∀ k ∈ table, alookup h0 k = none) →
      ∀ (j : Nat) (hj : j < table.length),
        alookup (table.foldl (fun sortOrder i => hashInsert sortOrder i sortOrder.length) h0)
          (table.get ⟨j, hj⟩) = some ((h0.length : Int) + j) := by
  intro table
  induction table with
  | nil =>
      intro h0 _ _ j hj
      cases hj
  | cons k rest ih =>
      intro h0 hnd hfresh j hj
      have hknotin : k ∉ rest := (List.nodup_cons.mp hnd).1
      have hkfresh : alookup h0 k = none := hfresh k (List.mem_cons_self _ _)
      have hlen : (hashInsert h0 k h0.length).length = h0.length + 1 :=
        hashInsert_length_fresh h0 k _ hkfresh
      cases j with
      | zero =>
          rw [List.foldl_cons]
          show alookup _ k = _
          rw [buildAux_lookup_not_mem rest _ k hknotin, alookup_hashInsert, if_pos rfl]
          simp
      | succ j =>
          rw [List.foldl_cons]
          show alookup _ (rest.get ⟨j, Nat.lt_of_succ_lt_succ hj⟩) = _
          rw [ih (hashInsert h0 k h0.length) (List.nodup_cons.mp hnd).2
            (fun x hx => by
              rw [alookup_hashInsert,
                if_neg (fun (h : x = k) => hknotin (h ▸ hx)),
                hfresh x (List.mem_cons_of_mem _ hx)])
            j (Nat.lt_of_succ_lt_succ hj), hlen]
          congr 1
          push_cast
          ring

lemma iconTypeSortOrder_positions_of_nodup (table : List Int) (icon : Int)
    (hnd : table.Nodup) :
    (∀ j : Fin table.length, table.get j = icon →
        iconTypeSortOrder table icon = ((j : Nat) : Int)) ∧
    (icon ∉ table → iconTypeSortOrder table icon = icon) := by
  constructor
  · rintro ⟨j, hj⟩ rfl
    rw [iconTypeSortOrder, buildSortOrder,
      buildAux_lookup_get table [] hnd (fun _ _ => rfl) j hj]
    simp
  · intro hmem
    rw [iconTypeSortOrder, buildSortOrder, buildAux_lookup_not_mem table [] icon hmem]
    simp [alookup]

/-- C10: `iconTypeSortOrder` maps every icon listed in the `IconSortOrder`
table to its zero-based position in the table and returns any integer not
listed unchanged (so the sort key of an unlisted icon kind can coincide with
a position assigned to a listed kind, as the witness shows). -/
theorem iconTypeSortOrder_positions (icon : Int) :
    (∀ j : Fin IconSortOrder.length, IconSortOrder.get j = icon →
        iconTypeSortOrder IconSortOrder icon = ((j : Nat) : Int)) ∧
    (icon ∉ IconSortOrder → iconTypeSortOrder IconSortOrder icon = icon) :=
  iconTypeSortOrder_positions_of_nodup IconSortOrder icon (by decide)

/-- Witness for C10 at the concrete `IconSortOrder` table: the icon listed
first gets position 0, and an icon absent from the table comes back unchanged
even though its value coincides with a position assigned to a listed icon. -/
theorem iconTypeSortOrder_positions_witness :
    IconSortOrder.get ⟨0, by decide⟩ = CodeModelIcon.Namespace ∧
    iconTypeSortOrder IconSortOrder CodeModelIcon.Namespace = 0 ∧
    CodeModelIcon.Struct ∉ IconSortOrder ∧
    iconTypeSortOrder IconSortOrder CodeModelIcon.Struct = CodeModelIcon.Struct :=
  ⟨by decide,
    (iconTypeSortOrder_positions CodeModelIcon.Namespace).1 ⟨0, by decide⟩ (by decide),
    by decide,
    (iconTypeSortOrder_positions CodeModelIcon.Struct).2 (by decide)⟩

end ClassView

namespace Qnx

lemma parseLine_eq_spec :
    ∀ line : List Char,
      (match line.findIdx? (· == '=') with
       | none => none
       | some equalIndex =>
           some (⟨line.take equalIndex, line.drop (equalIndex + 1)⟩ : EnvironmentItem))
      = envLineSpec line := by
  intro line
  induction line with
  | nil => simp [envLineSpec]
  | cons c cs ih =>
      by_cases hc : c = '='
      · subst hc
        simp [List.findIdx?_cons, envLineSpec]
      · have hcb : (c == '=') = false := by simp [hc]
        rw [List.findIdx?_cons, hcb]
        simp only [Bool.false_eq_true, if_false, List.findIdx?_succ]
        cases hfind : cs.findIdx? (· == '=') with
        | none =>
            have hnotmem : ¬ '=' ∈ cs := by
              intro hmem
              have := List.findIdx?_eq_none_iff.mp hfind '=' hmem
              simp at this
            simp [envLineSpec, hc, hnotmem, Ne.symm hc]
        | some i =>
            rw [hfind] at ih
            simp only [Option.map_some']
            have hspec := ih.symm
            rw [envLineSpec] at hspec
            by_cases hmem : '=' ∈ cs
            · rw [if_pos hmem] at hspec
              have hcomp := Option.some.inj hspec
              have htake : cs.takeWhile (fun x => !(x == '=')) = cs.take i :=
                congrArg EnvironmentItem.name hcomp
              have hdrop : (cs.dropWhile (fun x => !(x == '='))).drop 1 = cs.drop (i + 1) :=
                congrArg EnvironmentItem.value hcomp
              rw [envLineSpec, if_pos (List.mem_cons_of_mem _ hmem)]
              simp only [List.takeWhile_cons, List.dropWhile_cons, hcb, Bool.not_false,
                if_true, List.take_succ_cons, List.drop_succ_cons]
              rw [htake, hdrop]
            · rw [if_neg hmem] at hspec
              cases hspec
  
lemma parseEnvLines_eq_filterMap :
    ∀ lines : List (List Char), parseEnvLines lines = lines.filterMap envLineSpec := by
  intro lines
  induction lines with
  | nil => simp [parseEnvLines]
  | cons line rest ih =>
      have hline := parseLine_eq_spec line
      cases hfind : line.findIdx? (· == '=') with
      | none =>
          rw [hfind] at hline
          rw [parseEnvLines, hfind, List.filterMap_cons, ← hline, ih]
      | some i =>
          rw [hfind] at hline
          rw [parseEnvLines, hfind, List.filterMap_cons, ← hline, ih]

/-- C6: `qnxEnvironmentFromEnvFile` returns the empty list whenever the env
file does not exist, the temporary wrapper script cannot be created, the
wrapper process does not finish within the timeout, or it exits abnormally or
with a nonzero exit code; otherwise it returns exactly one environment item
per output line containing an equals sign, with the name being the text
before the first equals sign and the value the text after it, and lines
without one skipped. -/
theorem qnxEnvironmentFromEnvFile_spec (w : EnvFileWorld) :
    ((w.fileExists = false ∨ w.tmpFileOpenOk = false ∨ w.waitResult = false ∨
        w.exitStatus ≠ ExitStatus.NormalExit ∨ w.exitCode ≠ 0) →
      qnxEnvironmentFromEnvFile w = []) ∧
    (w.fileExists = true → w.tmpFileOpenOk = true → w.waitResult = true →
      w.exitStatus = ExitStatus.NormalExit → w.exitCode = 0 →
      qnxEnvironmentFromEnvFile w = w.outputLines.filterMap envLineSpec) := by
  constructor
  · intro h
    rw [qnxEnvironmentFromEnvFile]
    split_ifs with h1 h2 h3 h4
    · rfl
    · rfl
    · rfl
    · rfl
    · rcases h with h | h | h | h | h
      · exact absurd h h1
      · exact absurd h h2
      · exact absurd h h3
      · exact absurd (Or.inl h) h4
      · exact absurd (Or.inr h) h4
  · intro h1 h2 h3 h4 h5
    rw [qnxEnvironmentFromEnvFile]
    rw [if_neg (by simp [h1]), if_neg (by simp [h2]), if_neg (by simp [h3]),
      if_neg (by simp [h4, h5]), parseEnvLines_eq_filterMap]

/-- Witness for C6: a successful run whose output has a plain assignment, a
line without an equals sign, and a line with two of them. -/
theorem qnxEnvironmentFromEnvFile_spec_witness :
    qnxEnvironmentFromEnvFile
      ⟨true, true, true, ExitStatus.NormalExit, 0,
        [['A', '=', '1'], ['x'], ['B', '=', '=', '2']]⟩
      = [⟨['A'], ['1']⟩, ⟨['B'], ['=', '2']⟩] :=
  ((qnxEnvironmentFromEnvFile_spec _).2 rfl rfl rfl rfl rfl).trans (by decide)

end Qnx

namespace QmlDump

/-- C7: every non-empty path returned by `qmlDumpPath` refers to an existing
regular file; when the tool path found does not exist or is not a file the
function clears it and returns the empty string, and a known Qt version with
no tool found at most schedules a background build and still returns empty. -/
theorem qmlDumpPath_checks_file (w : QmlDumpWorld) :
    (qmlDumpPath w ≠ "" →
      w.fsExists (qmlDumpPath w) = true ∧ w.fsIsFile (qmlDumpPath w) = true) ∧
    (w.versionFound = true → w.toolForProject = "" → qmlDumpPath w = "") ∧
    (w.toolForProject ≠ "" →
      (w.fsExists w.toolForProject = false ∨ w.fsIsFile w.toolForProject = false) →
      qmlDumpPath w = "") := by
  rw [qmlDumpPath]
  split_ifs with h1 h2 h3 h4
  · refine ⟨fun hne => absurd h1.2 hne, fun _ _ => h1.2, fun ht _ => absurd h1.2 ht⟩
  · exact ⟨fun hne => absurd rfl hne, fun hv ht => absurd ⟨hv, ht⟩ h1, fun _ _ => rfl⟩
  · exact ⟨fun hne => absurd rfl hne, fun hv ht => absurd ⟨hv, ht⟩ h1, fun _ _ => rfl⟩
  · refine ⟨fun _ => ⟨?_, ?_⟩, fun hv ht => absurd ⟨hv, ht⟩ h1, fun _ hbad => ?_⟩
    · simpa using h3
    · simpa using h4
    · rcases hbad with hbad | hbad
      · exact absurd hbad h3
      · exact absurd hbad h4
  · exact ⟨fun hne => absurd (not_ne_iff.mp h2) hne,
      fun hv ht => absurd ⟨hv, ht⟩ h1, fun ht _ => absurd ht h2⟩

/-- Witness for C7: a world where the tool path is found and the filesystem
checks pass, so the returned path satisfies both checks. -/
theorem qmlDumpPath_checks_file_witness :
    (QmlDumpWorld.mk "tool" true (fun _ => true) (fun _ => true)).fsExists
        (qmlDumpPath (QmlDumpWorld.mk "tool" true (fun _ => true) (fun _ => true))) = true ∧
    (QmlDumpWorld.mk "tool" true (fun _ => true) (fun _ => true)).fsIsFile
        (qmlDumpPath (QmlDumpWorld.mk "tool" true (fun _ => true) (fun _ => true))) = true :=
  (qmlDumpPath_checks_file _).1 (by decide)

end QmlDump
